import Mathlib

/-!
Shallow embedding of `src/pi_monte_carlo.cpp`: a Monte-Carlo π estimator
built on a 32-bit xorshift PRNG, with three estimators (quarter-circle
hit count, coprime-pair count, Buffon's-needle crossing count) and the
driver's per-method π-estimate formulas.

Machine integers are embedded as `ℕ` with explicit reduction modulo
`2^32` / `2^64` exactly where the C++ fixed-width types wrap.  The
`double` results of `next_double` are embedded as exact rationals: the
source composes a 53-bit integer and divides by `2^53`, both of which are
exact in IEEE binary64, so the rational value is the exact value of the
returned double.  Buffon's trigonometric test and the driver's π-estimate
formulas are idealized over `ℝ`/`ℚ` with IEEE special values modelled
explicitly where a claim turns on them.
-/

namespace PiMC

/-- The C++ struct `RNG` holds one 32-bit word of state, embedded as a
natural number that is kept `< 2^32` by every operation. -/
structure RNG where
  s : ℕ
deriving DecidableEq, Repr

/-- Constructor `RNG(uint32_t seed=123456789u)`: a zero seed is replaced by
the fallback constant `2463534242u`, then stored as the state. -/
def RNG.init (seed : ℕ) : RNG :=
  ⟨if seed = 0 then 2463534242 else seed⟩

/-- Method `uint32_t RNG::next_u32()`: the xorshift body
`x ^= x << 13; x ^= x >> 17; x ^= x << 5;` on `uint32_t` (each left shift
wraps modulo `2^32` before the XOR), storing and returning the result. -/
def RNG.next_u32 (r : RNG) : ℕ × RNG :=
  let x0 := r.s
  let x1 := x0 ^^^ ((x0 <<< 13) % 2 ^ 32)
  let x2 := x1 ^^^ (x1 >>> 17)
  let x3 := x2 ^^^ ((x2 <<< 5) % 2 ^ 32)
  (x3, ⟨x3⟩)

/-- The xorshift state-transition function: the value produced (and stored)
by `next_u32` from state `s`. -/
def T (s : ℕ) : ℕ :=
  (RNG.next_u32 ⟨s⟩).1

theorem next_u32_eq (r : RNG) : r.next_u32 = (T r.s, ⟨T r.s⟩) := rfl

/-- Method `double RNG::next_double()`: two draws, `hi = u1 >> 6`
(26 bits), `lo = u2 >> 5` (27 bits), `val = (hi << 27) | lo` (53 bits),
returning `val / 2^53`.  The division of an integer below `2^53` by `2^53`
is exact in binary64, so the returned double is embedded as the exact
rational `val / 2^53`. -/
def RNG.next_double (r : RNG) : ℚ × RNG :=
  let p1 := r.next_u32
  let p2 := p1.2.next_u32
  let hi := p1.1 >>> 6
  let lo := p2.1 >>> 5
  let val := (hi <<< 27) ||| lo
  ((val : ℚ) / 2 ^ 53, p2.2)

/-- Bits of `a % 2^n` and of `a` agree below position `n`. -/
theorem mod_two_pow_xor (a b n : ℕ) :
    (a ^^^ b) % 2 ^ n = (a % 2 ^ n) ^^^ (b % 2 ^ n) := by
  apply Nat.eq_of_testBit_eq
  intro i
  simp [Nat.testBit_mod_two_pow, Nat.testBit_xor]
  by_cases h : i < n <;> simp [h]

/-- XOR does not leave the 32-bit range. -/
theorem xor_lt_two_pow {a b n : ℕ} (ha : a < 2 ^ n) (hb : b < 2 ^ n) :
    a ^^^ b < 2 ^ n := by
  have := Nat.xor_lt_two_pow (n := n) ha hb
  exact this

/-- A right shift never increases a natural number. -/
theorem shiftRight_le_self (a k : ℕ) : a >>> k ≤ a := by
  rw [Nat.shiftRight_eq_div_pow]
  exact Nat.div_le_self _ _

/-- The xorshift transition keeps the state below `2^32`. -/
theorem T_lt {s : ℕ} (hs : s < 2 ^ 32) : T s < 2 ^ 32 := by
  unfold T RNG.next_u32
  simp only []
  apply xor_lt_two_pow
  · apply xor_lt_two_pow
    · exact xor_lt_two_pow hs (Nat.mod_lt _ (by norm_num))
    · exact lt_of_le_of_lt (shiftRight_le_self _ _)
        (xor_lt_two_pow hs (Nat.mod_lt _ (by norm_num)))
  · exact Nat.mod_lt _ (by norm_num)

/-- Function `uint64_t circle_count_uint(uint32_t trials, RNG &rng)`:
per trial, two draws `x, y`; the products `x*x`, `y*y` are exact in
`uint64_t` (each factor is below `2^32`), while the sum `xx + yy` is
`uint64_t` addition and therefore wraps modulo `2^64`; a hit is counted
when the wrapped sum is at most `MAX*MAX` with `MAX = 2^32 - 1`.
Returns the hit count and the mutated RNG. -/
def circle_count_uint : ℕ → RNG → ℕ × RNG
  | 0, r => (0, r)
  | n + 1, r =>
    let p1 := r.next_u32
    let p2 := p1.2.next_u32
    let xx := p1.1 * p1.1
    let yy := p2.1 * p2.1
    let rest := circle_count_uint n p2.2
    ((if (xx + yy) % 2 ^ 64 ≤ 4294967295 * 4294967295 then 1 else 0) + rest.1,
      rest.2)

/-- Function `uint32_t coprime_count(uint32_t trials, RNG &rng)`: per
trial, two draws each forced odd with `| 1u`; a hit is counted when
`gcd(a, b) == 1` (`std::gcd` is `Nat.gcd`).  Returns the hit count and
the mutated RNG. -/
def coprime_count : ℕ → RNG → ℕ × RNG
  | 0, r => (0, r)
  | n + 1, r =>
    let p1 := r.next_u32
    let p2 := p1.2.next_u32
    let rest := coprime_count n p2.2
    ((if Nat.gcd (p1.1 ||| 1) (p2.1 ||| 1) = 1 then 1 else 0) + rest.1, rest.2)

/-- The trace of pairs `(a, b)` tested by `coprime_count`, in trial
order, read off the same loop body. -/
def coprimePairs : ℕ → RNG → List (ℕ × ℕ)
  | 0, _ => []
  | n + 1, r =>
    let p1 := r.next_u32
    let p2 := p1.2.next_u32
    (p1.1 ||| 1, p2.1 ||| 1) :: coprimePairs n p2.2

open scoped Classical in
/-- Function `uint32_t buffon_count(uint32_t trials, RNG &rng)`: per
trial, `y = next_double() * 0.5`, `theta = next_double() * (M_PI / 2)`,
`half_proj = 0.5 * sin(theta)`, and a crossing is counted when
`y <= half_proj`.  The double arithmetic (`M_PI`, the products, `sin`)
is idealized over `ℝ`; the claims proved below about this function
(count bound, state threading) do not depend on the truth value of the
crossing test. -/
noncomputable def buffon_count : ℕ → RNG → ℕ × RNG
  | 0, r => (0, r)
  | n + 1, r =>
    let d1 := r.next_double
    let d2 := d1.2.next_double
    let rest := buffon_count n d2.2
    ((if (d1.1 : ℝ) * 0.5 ≤ 0.5 * Real.sin ((d2.1 : ℝ) * (Real.pi / 2))
        then 1 else 0) + rest.1,
      rest.2)

/-- Model of an IEEE binary64 value as used by the driver's π-estimate
expressions: a finite value (carried as an exact rational; exact wherever
a claim below inspects it), `+∞`, `-∞`, or NaN. -/
inductive DVal where
  | nan : DVal
  | posInf : DVal
  | negInf : DVal
  | finite (q : ℚ) : DVal
deriving DecidableEq, Repr

/-- IEEE division `a / b` of finite doubles: a nonzero finite value
divided by (positive) zero gives a signed infinity, `0/0` gives NaN,
otherwise the finite quotient (idealized as exact). -/
def fdivD (a b : ℚ) : DVal :=
  if b = 0 then
    if a = 0 then DVal.nan else if 0 < a then DVal.posInf else DVal.negInf
  else DVal.finite (a / b)

/-- IEEE `sqrt`: NaN on NaN and on negative arguments (including `-∞`),
`+∞` on `+∞`, finite on nonnegative finite arguments (payload idealized;
no claim below inspects a nonzero finite payload of a square root). -/
def fsqrtD : DVal → DVal
  | DVal.nan => DVal.nan
  | DVal.posInf => DVal.posInf
  | DVal.negInf => DVal.nan
  | DVal.finite q => if q < 0 then DVal.nan else DVal.finite (Rat.sqrt q)

/-- The driver's method-2 estimate `pi_est = sqrt(6.0 / p)` with
`p = (double)hits / (double)n` (main, lines 108–111); `p` is embedded as
the exact rational `hits / n`, faithful for the sign and zero tests the
claims turn on (for `n > 0`, `p = 0` in IEEE exactly when `hits = 0`). -/
def coprime_pi_est (hits trials : ℕ) : DVal :=
  fsqrtD (fdivD 6 ((hits : ℚ) / (trials : ℚ)))

/-- The driver's method-3 estimate `pi_est = (p > 0.0) ? (2.0 / p) : 0.0`
with `p = (double)crosses / (double)n` (main, lines 119–122). -/
def buffon_pi_est (crosses trials : ℕ) : DVal :=
  if 0 < (crosses : ℚ) / (trials : ℚ) then fdivD 2 ((crosses : ℚ) / (trials : ℚ))
  else DVal.finite 0

/-- A number below `2^32` that is a fixed point of wrapped left shift by
`k > 0` bits must be zero: `2^32` divides `b * (2^k - 1)` and `2^k - 1`
is odd. -/
theorem shl_fixpoint_eq_zero {b k : ℕ}
    (hb : b < 2 ^ 32) (hcop : Nat.Coprime (2 ^ 32) (2 ^ k - 1))
    (h : b = (b <<< k) % 2 ^ 32) : b = 0 := by
  rw [Nat.shiftLeft_eq] at h
  have hmod : b % 2 ^ 32 = (b * 2 ^ k) % 2 ^ 32 := by
    rw [Nat.mod_eq_of_lt hb]; exact h
  have hle : b ≤ b * 2 ^ k :=
    Nat.le_mul_of_pos_right b (Nat.pos_pow_of_pos k (by norm_num))
  have hdvd : 2 ^ 32 ∣ b * 2 ^ k - b := (Nat.modEq_iff_dvd' hle).mp hmod
  have hdvd' : 2 ^ 32 ∣ b * (2 ^ k - 1) := by
    have hh : b * (2 ^ k - 1) = b * 2 ^ k - b := by
      rw [Nat.mul_sub_one]
    rwa [hh]
  have : 2 ^ 32 ∣ b := hcop.dvd_of_dvd_mul_right hdvd'
  exact Nat.eq_zero_of_dvd_of_lt this hb

/-- A fixed point of right shift by `k > 0` bits is zero. -/
theorem shr_fixpoint_eq_zero {a k : ℕ} (hk : 0 < k) (h : a = a >>> k) :
    a = 0 := by
  by_contra hne
  rw [Nat.shiftRight_eq_div_pow] at h
  have : a / 2 ^ k < a :=
    Nat.div_lt_self (Nat.pos_of_ne_zero hne) (Nat.one_lt_two_pow (by omega))
  omega

/-- The xorshift transition never maps a nonzero 32-bit state to zero. -/
theorem T_ne_zero {s : ℕ} (hs : s < 2 ^ 32) (h : s ≠ 0) : T s ≠ 0 := by
  intro h0
  unfold T RNG.next_u32 at h0
  simp only [] at h0
  have h13 : Nat.Coprime (2 ^ 32) (2 ^ 13 - 1) :=
    Nat.Coprime.pow_left 32 (by decide)
  have h5 : Nat.Coprime (2 ^ 32) (2 ^ 5 - 1) :=
    Nat.Coprime.pow_left 32 (by decide)
  set x1 := s ^^^ ((s <<< 13) % 2 ^ 32) with hx1
  set x2 := x1 ^^^ (x1 >>> 17) with hx2
  have hx1lt : x1 < 2 ^ 32 := xor_lt_two_pow hs (Nat.mod_lt _ (by norm_num))
  have hx2lt : x2 < 2 ^ 32 :=
    xor_lt_two_pow hx1lt (lt_of_le_of_lt (shiftRight_le_self _ _) hx1lt)
  have hx2z : x2 = 0 :=
    shl_fixpoint_eq_zero hx2lt h5 (Nat.xor_eq_zero.mp h0)
  have hx1z : x1 = 0 :=
    shr_fixpoint_eq_zero (by norm_num) (Nat.xor_eq_zero.mp hx2z)
  exact h (shl_fixpoint_eq_zero hs h13 (Nat.xor_eq_zero.mp hx1z))

/-- Folding a wraparound left shift into an XOR below `2^32`. -/
theorem xor_shl_mod {a : ℕ} (k : ℕ) (ha : a < 2 ^ 32) :
    (a ^^^ a <<< k) % 2 ^ 32 = a ^^^ (a <<< k) % 2 ^ 32 := by
  rw [mod_two_pow_xor, Nat.mod_eq_of_lt ha]

/-- The three-step transform in the words of the specification: XOR with
the left shift by 13, then XOR with the right shift by 17, then XOR with
the left shift by 5, each on 32-bit words with wraparound. -/
def xorshiftSpec (s : ℕ) : ℕ :=
  let a := (s ^^^ s <<< 13) % 2 ^ 32
  let b := (a ^^^ a >>> 17) % 2 ^ 32
  (b ^^^ b <<< 5) % 2 ^ 32

/-- On 32-bit states the code's transition agrees with the spec's
three-step transform. -/
theorem xorshiftSpec_eq_T {s : ℕ} (hs : s < 2 ^ 32) : xorshiftSpec s = T s := by
  have ha : s ^^^ (s <<< 13) % 2 ^ 32 < 2 ^ 32 :=
    xor_lt_two_pow hs (Nat.mod_lt _ (by norm_num))
  have hb : s ^^^ (s <<< 13) % 2 ^ 32 ^^^ (s ^^^ (s <<< 13) % 2 ^ 32) >>> 17
      < 2 ^ 32 :=
    xor_lt_two_pow ha (lt_of_le_of_lt (shiftRight_le_self _ _) ha)
  simp only [xorshiftSpec, T, RNG.next_u32]
  rw [xor_shl_mod 13 hs, Nat.mod_eq_of_lt hb, xor_shl_mod 5 hb]

/-- Nonzero 32-bit states stay nonzero and 32-bit under any number of
xorshift steps. -/
theorem iterate_T_ne_zero {s : ℕ} (hs : s < 2 ^ 32) (h : s ≠ 0) (n : ℕ) :
    T^[n] s ≠ 0 ∧ T^[n] s < 2 ^ 32 := by
  induction n with
  | zero => exact ⟨h, hs⟩
  | succ n ih =>
    rw [Function.iterate_succ_apply']
    exact ⟨T_ne_zero ih.2 ih.1, T_lt ih.2⟩

/-- A call made to the shared engine: either `next_u32` or `next_double`. -/
inductive Call where
  | u32 : Call
  | dbl : Call
deriving DecidableEq, Repr

/-- Driving an engine through a sequence of calls, collecting the output
of each call and the final state. -/
def runCalls : List Call → RNG → List (ℕ ⊕ ℚ) × RNG
  | [], r => ([], r)
  | Call.u32 :: cs, r =>
    let p := r.next_u32
    let rest := runCalls cs p.2
    (Sum.inl p.1 :: rest.1, rest.2)
  | Call.dbl :: cs, r =>
    let p := r.next_double
    let rest := runCalls cs p.2
    (Sum.inr p.1 :: rest.1, rest.2)

/-- C2: a call to next_uint32() computes the three-step xorshift
transform of the state s — XOR with the left shift by 13, then XOR with
the right shift by 17, then XOR with the left shift by 5, on 32-bit
unsigned words with wraparound — stores that result as the new state,
and returns that same result. -/
theorem next_u32_is_xorshift (r : RNG) (hr : r.s < 2 ^ 32) :
    r.next_u32 = (xorshiftSpec r.s, RNG.mk (xorshiftSpec r.s)) := by
  rw [next_u32_eq, xorshiftSpec_eq_T hr]

/-- Witness for C2 at the default seed 123456789. -/
theorem next_u32_is_xorshift_witness :
    (123456789 : ℕ) < 2 ^ 32 ∧
      (RNG.mk 123456789).next_u32 =
        (xorshiftSpec 123456789, RNG.mk (xorshiftSpec 123456789)) :=
  ⟨by norm_num, next_u32_is_xorshift ⟨123456789⟩ (by norm_num)⟩

/-- C3: construction stores a nonzero seed unchanged, maps seed 0 to the
fallback constant 2463534242, and from any constructed state the state
is never zero after any finite number of next_uint32() calls. -/
theorem rng_state_never_zero (v n : ℕ) (hv : v < 2 ^ 32) :
    (v ≠ 0 → (RNG.init v).s = v) ∧
      (RNG.init 0).s = 2463534242 ∧
      T^[n] (RNG.init v).s ≠ 0 := by
  refine ⟨fun h => by simp [RNG.init, h], rfl, ?_⟩
  have h1 : (RNG.init v).s ≠ 0 := by
    unfold RNG.init
    split
    · norm_num
    · simpa using by assumption
  have h2 : (RNG.init v).s < 2 ^ 32 := by
    unfold RNG.init
    split
    · norm_num
    · simpa using hv
  exact (iterate_T_ne_zero h2 h1 n).1

/-- Witness for C3 at seed 123456789 after three steps. -/
theorem rng_state_never_zero_witness :
    (123456789 : ℕ) < 2 ^ 32 ∧
      ((123456789 ≠ 0 → (RNG.init 123456789).s = 123456789) ∧
        (RNG.init 0).s = 2463534242 ∧
        T^[3] (RNG.init 123456789).s ≠ 0) :=
  ⟨by norm_num, rng_state_never_zero 123456789 3 (by norm_num)⟩

/-- C7: the generator is a pure deterministic function of the prior
state: two engines with equal states driven through the same call
sequence produce identical output sequences and identical final
states. -/
theorem rng_deterministic (r₁ r₂ : RNG) (h : r₁.s = r₂.s)
    (cs : List Call) : runCalls cs r₁ = runCalls cs r₂ := by
  cases r₁
  cases r₂
  cases h
  rfl

/-- Witness for C7: two engines freshly seeded with the default seed. -/
theorem rng_deterministic_witness :
    (RNG.init 123456789).s = (RNG.init 123456789).s ∧
      runCalls [Call.u32, Call.dbl] (RNG.init 123456789) =
        runCalls [Call.u32, Call.dbl] (RNG.init 123456789) :=
  ⟨rfl, rng_deterministic (RNG.init 123456789) (RNG.init 123456789) rfl
    [Call.u32, Call.dbl]⟩

/-- Forcing the low bit with a bitwise OR yields an odd number. -/
theorem or_one_mod_two (x : ℕ) : (x ||| 1) % 2 = 1 := by
  have h : (x ||| 1) &&& 1 = 1 := by
    simp [Nat.and_distrib_right]
  rw [← Nat.and_one_is_mod]
  exact h

/-- C4: next_double() draws exactly two 32-bit integers (the state
advances by two xorshift steps), discards the low 6 bits of the first
and the low 5 bits of the second, composes the remaining bits into a
53-bit unsigned integer, divides by 2^53, and the returned value lies in
[0, 1) — never exactly 1 and never negative. -/
theorem next_double_correct (r : RNG) (hr : r.s < 2 ^ 32) :
    r.next_double =
      (((T r.s >>> 6) <<< 27 ||| T (T r.s) >>> 5 : ℕ) / (2 ^ 53 : ℚ),
        ⟨T (T r.s)⟩) ∧
      ((T r.s >>> 6) <<< 27 ||| T (T r.s) >>> 5) < 2 ^ 53 ∧
      0 ≤ r.next_double.1 ∧ r.next_double.1 < 1 := by
  have h1 : T r.s < 2 ^ 32 := T_lt hr
  have h2 : T (T r.s) < 2 ^ 32 := T_lt h1
  have hhi : T r.s >>> 6 < 2 ^ 26 := by
    rw [Nat.shiftRight_eq_div_pow]
    omega
  have hlo : T (T r.s) >>> 5 < 2 ^ 27 := by
    rw [Nat.shiftRight_eq_div_pow]
    omega
  have hval : ((T r.s >>> 6) <<< 27 ||| T (T r.s) >>> 5) < 2 ^ 53 := by
    apply Nat.or_lt_two_pow
    · rw [Nat.shiftLeft_eq]
      calc (T r.s >>> 6) * 2 ^ 27 < 2 ^ 26 * 2 ^ 27 :=
            mul_lt_mul_of_pos_right hhi (by norm_num)
        _ = 2 ^ 53 := by norm_num
    · exact lt_trans hlo (by norm_num)
  have heq : r.next_double =
      (((T r.s >>> 6) <<< 27 ||| T (T r.s) >>> 5 : ℕ) / (2 ^ 53 : ℚ),
        ⟨T (T r.s)⟩) := rfl
  refine ⟨heq, hval, ?_, ?_⟩
  · rw [heq]
    positivity
  · rw [heq]
    have : (((T r.s >>> 6) <<< 27 ||| T (T r.s) >>> 5 : ℕ) : ℚ) < 2 ^ 53 := by
      exact_mod_cast hval
    rw [div_lt_one (by positivity)]
    exact this

/-- Witness for C4 at the default seed. -/
theorem next_double_correct_witness :
    (123456789 : ℕ) < 2 ^ 32 ∧
      ((RNG.mk 123456789).next_double =
          (((T 123456789 >>> 6) <<< 27 ||| T (T 123456789) >>> 5 : ℕ) /
              (2 ^ 53 : ℚ),
            ⟨T (T 123456789)⟩) ∧
        ((T 123456789 >>> 6) <<< 27 ||| T (T 123456789) >>> 5) < 2 ^ 53 ∧
        0 ≤ (RNG.mk 123456789).next_double.1 ∧
        (RNG.mk 123456789).next_double.1 < 1) :=
  ⟨by norm_num, next_double_correct ⟨123456789⟩ (by norm_num)⟩

/-- C5: every pair tested by the coprimality estimator has both
components odd, and the returned hit count equals the number of tested
pairs whose greatest common divisor is 1. -/
theorem coprime_pairs_odd_and_exact (n : ℕ) (r : RNG) :
    (∀ p ∈ coprimePairs n r, p.1 % 2 = 1 ∧ p.2 % 2 = 1) ∧
      (coprime_count n r).1 =
        (coprimePairs n r).countP (fun p => Nat.gcd p.1 p.2 == 1) := by
  induction n generalizing r with
  | zero => exact ⟨by simp [coprimePairs], rfl⟩
  | succ n ih =>
    obtain ⟨ihodd, ihcount⟩ := ih ⟨T (T r.s)⟩
    constructor
    · intro p hp
      simp only [coprimePairs, List.mem_cons] at hp
      rcases hp with h | h
      · rw [h]
        exact ⟨or_one_mod_two _, or_one_mod_two _⟩
      · exact ihodd p h
    · show (if Nat.gcd (T r.s ||| 1) (T (T r.s) ||| 1) = 1 then 1 else 0) +
          (coprime_count n ⟨T (T r.s)⟩).1 =
        List.countP (fun p => Nat.gcd p.1 p.2 == 1)
          ((T r.s ||| 1, T (T r.s) ||| 1) :: coprimePairs n ⟨T (T r.s)⟩)
      rw [List.countP_cons, ihcount]
      by_cases h : Nat.gcd (T r.s ||| 1) (T (T r.s) ||| 1) = 1
      · simp [h, Nat.add_comm]
      · simp [h]

/-- C1 failing input: seeding with 1112038971, the first trial draws
`x = T 1112038971 = 2020361596` and `y = T x = 3904118461`; the exact sum
of squares exceeds both `MAX²` and `2^64`, so the `uint64_t` sum wraps,
the wrapped comparison accepts, and the code counts a hit for a point
that lies strictly outside the quarter circle. -/
theorem circle_overflow_failing_input :
    T 1112038971 = 2020361596 ∧
      T 2020361596 = 3904118461 ∧
      (circle_count_uint 1 ⟨1112038971⟩).1 = 1 ∧
      4294967295 * 4294967295 <
        2020361596 * 2020361596 + 3904118461 * 3904118461 ∧
      2 ^ 64 ≤ 2020361596 * 2020361596 + 3904118461 * 3904118461 := by
  refine ⟨by decide, by decide, by decide, by decide, by decide⟩

/-- C6 counterexample: with zero coprime hits (over the driver's sample
size 100), `sqrt(6.0 / 0.0)` evaluates to `+∞` under IEEE arithmetic —
not to a NaN sentinel. -/
theorem coprime_zero_is_posinf_not_nan :
    coprime_pi_est 0 100 = DVal.posInf ∧ coprime_pi_est 0 100 ≠ DVal.nan := by
  constructor
  · simp [coprime_pi_est, fdivD, fsqrtD]
  · simp [coprime_pi_est, fdivD, fsqrtD]

/-- C6 amended: for a positive trial count, a zero coprimality hit count
yields the non-finite sentinel `+∞` (6/0 = +∞, sqrt(+∞) = +∞) without
raising or crashing, while a zero Buffon crossing count is explicitly
mapped to the finite value 0.0 — the two estimators handle the
zero-probability edge differently by design. -/
theorem zero_count_estimates (n : ℕ) (hn : 0 < n) :
    coprime_pi_est 0 n = DVal.posInf ∧ buffon_pi_est 0 n = DVal.finite 0 := by
  constructor
  · simp [coprime_pi_est, fdivD, fsqrtD]
  · simp [buffon_pi_est]

/-- Witness for the amended C6 at the driver's smallest sample size. -/
theorem zero_count_estimates_witness :
    (0 : ℕ) < 100 ∧
      (coprime_pi_est 0 100 = DVal.posInf ∧
        buffon_pi_est 0 100 = DVal.finite 0) :=
  ⟨by norm_num, zero_count_estimates 100 (by norm_num)⟩

/-- One Buffon trial adds at most one crossing and advances the state by
four xorshift steps. -/
theorem buffon_succ_ex (n : ℕ) (r : RNG) :
    ∃ b, b ≤ 1 ∧ buffon_count (n + 1) r =
      (b + (buffon_count n ⟨T (T (T (T r.s)))⟩).1,
        (buffon_count n ⟨T (T (T (T r.s)))⟩).2) := by
  refine ⟨_, ?_, rfl⟩
  split <;> norm_num

/-- The circle estimator counts at most one hit per trial. -/
theorem circle_count_le (n : ℕ) (r : RNG) : (circle_count_uint n r).1 ≤ n := by
  induction n generalizing r with
  | zero => exact le_refl 0
  | succ n ih =>
    have h : (circle_count_uint (n + 1) r).1 =
        (if (T r.s * T r.s + T (T r.s) * T (T r.s)) % 2 ^ 64 ≤
            4294967295 * 4294967295 then 1 else 0) +
          (circle_count_uint n ⟨T (T r.s)⟩).1 := rfl
    rw [h]
    have := ih ⟨T (T r.s)⟩
    split <;> omega

/-- The coprimality estimator counts at most one hit per trial. -/
theorem coprime_count_le (n : ℕ) (r : RNG) : (coprime_count n r).1 ≤ n := by
  induction n generalizing r with
  | zero => exact le_refl 0
  | succ n ih =>
    have h : (coprime_count (n + 1) r).1 =
        (if Nat.gcd (T r.s ||| 1) (T (T r.s) ||| 1) = 1 then 1 else 0) +
          (coprime_count n ⟨T (T r.s)⟩).1 := rfl
    rw [h]
    have := ih ⟨T (T r.s)⟩
    split <;> omega

/-- The Buffon estimator counts at most one crossing per trial. -/
theorem buffon_count_le (n : ℕ) (r : RNG) : (buffon_count n r).1 ≤ n := by
  induction n generalizing r with
  | zero => exact le_refl 0
  | succ n ih =>
    obtain ⟨b, hb, heq⟩ := buffon_succ_ex n r
    rw [heq]
    have := ih ⟨T (T (T (T r.s)))⟩
    show b + (buffon_count n ⟨T (T (T (T r.s)))⟩).1 ≤ n + 1
    omega

/-- C8: each estimator's count lies in [0, trials], and for any
representable (32-bit) trials value the count fits the returned integer
width (`uint64_t` for the circle estimator, `uint32_t` for the other
two) without overflow. -/
theorem counts_in_range (n : ℕ) (r : RNG) (hn : n < 2 ^ 32) :
    (circle_count_uint n r).1 ≤ n ∧
      (coprime_count n r).1 ≤ n ∧
      (buffon_count n r).1 ≤ n ∧
      (circle_count_uint n r).1 < 2 ^ 64 ∧
      (coprime_count n r).1 < 2 ^ 32 ∧
      (buffon_count n r).1 < 2 ^ 32 := by
  have h1 := circle_count_le n r
  have h2 := coprime_count_le n r
  have h3 := buffon_count_le n r
  refine ⟨h1, h2, h3, ?_, ?_, ?_⟩ <;> omega

/-- Witness for C8 at the driver's smallest sample size. -/
theorem counts_in_range_witness :
    (100 : ℕ) < 2 ^ 32 ∧
      ((circle_count_uint 100 (RNG.init 123456789)).1 ≤ 100 ∧
        (coprime_count 100 (RNG.init 123456789)).1 ≤ 100 ∧
        (buffon_count 100 (RNG.init 123456789)).1 ≤ 100 ∧
        (circle_count_uint 100 (RNG.init 123456789)).1 < 2 ^ 64 ∧
        (coprime_count 100 (RNG.init 123456789)).1 < 2 ^ 32 ∧
        (buffon_count 100 (RNG.init 123456789)).1 < 2 ^ 32) :=
  ⟨by norm_num, counts_in_range 100 (RNG.init 123456789) (by norm_num)⟩

/-- C9: from a common starting state the circle estimator's hit count is
monotone in the trial count (the longer run extends the shorter run's
draw sequence), and zero trials give zero hits. -/
theorem circle_count_monotone (m n : ℕ) (r : RNG) (h : m ≤ n) :
    (circle_count_uint m r).1 ≤ (circle_count_uint n r).1 ∧
      (circle_count_uint 0 r).1 = 0 := by
  refine ⟨?_, rfl⟩
  induction m generalizing n r with
  | zero => exact Nat.zero_le _
  | succ m ih =>
    cases n with
    | zero => omega
    | succ k =>
      have hmk : m ≤ k := by omega
      exact Nat.add_le_add_left (ih k ⟨T (T r.s)⟩ hmk) _

/-- Witness for C9 with a 2-trial prefix of a 5-trial run. -/
theorem circle_count_monotone_witness :
    (2 : ℕ) ≤ 5 ∧
      ((circle_count_uint 2 (RNG.init 123456789)).1 ≤
          (circle_count_uint 5 (RNG.init 123456789)).1 ∧
        (circle_count_uint 0 (RNG.init 123456789)).1 = 0) :=
  ⟨by norm_num, circle_count_monotone 2 5 (RNG.init 123456789) (by norm_num)⟩

/-- The circle estimator advances the state by two steps per trial. -/
theorem circle_state (n : ℕ) (r : RNG) :
    (circle_count_uint n r).2 = ⟨T^[2 * n] r.s⟩ := by
  induction n generalizing r with
  | zero => rfl
  | succ n ih =>
    have h : (circle_count_uint (n + 1) r).2 =
        (circle_count_uint n ⟨T (T r.s)⟩).2 := rfl
    rw [h, ih ⟨T (T r.s)⟩]
    congr 1

/-- The coprimality estimator advances the state by two steps per trial. -/
theorem coprime_state (n : ℕ) (r : RNG) :
    (coprime_count n r).2 = ⟨T^[2 * n] r.s⟩ := by
  induction n generalizing r with
  | zero => rfl
  | succ n ih =>
    have h : (coprime_count (n + 1) r).2 =
        (coprime_count n ⟨T (T r.s)⟩).2 := rfl
    rw [h, ih ⟨T (T r.s)⟩]
    congr 1

/-- The Buffon estimator advances the state by four steps per trial. -/
theorem buffon_state (n : ℕ) (r : RNG) :
    (buffon_count n r).2 = ⟨T^[4 * n] r.s⟩ := by
  induction n generalizing r with
  | zero => rfl
  | succ n ih =>
    have h : (buffon_count (n + 1) r).2 =
        (buffon_count n ⟨T (T (T (T r.s)))⟩).2 := rfl
    rw [h, ih ⟨T (T (T (T r.s)))⟩]
    congr 1

/-- C10: the circle and coprimality estimators leave the PRNG state at
the (2·trials)-fold iterate of the xorshift transition, the Buffon
estimator at the (4·trials)-fold iterate (each next_double consumes two
draws); zero trials return count 0 and leave the state unchanged. -/
theorem estimators_state_threading (n : ℕ) (r : RNG) :
    (circle_count_uint n r).2 = ⟨T^[2 * n] r.s⟩ ∧
      (coprime_count n r).2 = ⟨T^[2 * n] r.s⟩ ∧
      (buffon_count n r).2 = ⟨T^[4 * n] r.s⟩ ∧
      circle_count_uint 0 r = (0, r) ∧
      coprime_count 0 r = (0, r) ∧
      buffon_count 0 r = (0, r) :=
  ⟨circle_state n r, coprime_state n r, buffon_state n r, rfl, rfl, rfl⟩

end PiMC
